import Mathlib

/-!
Verification of the predecessor/neighborhood index builder and the sparse
precision-matrix estimator of the `aml_pred_assim` package.

The Python sources are embedded shallowly:
* `Predecessor.py` / `utils.py`: index arithmetic over a 4D shape
  (layer, variable, latitude, longitude), points as integer 4-tuples,
  numpy `arange` / `unique` / `%` modelled on `List ℤ`.
* `PrecisionMatrix.py` / `core.py`: the per-feature ridge-regression loop
  over a 2D ensemble, with matrices as `List (List ℚ)` and the sparse COO
  assembly as explicit entry lists.
-/

namespace AmlPredAssim

/-- Shape of a 4D field: `d0 = L` layers, `d1 = V` variables, `d2 = K`
latitudes, `d3 = M` longitudes (the tuple `matrix.shape` in the source). -/
structure Sh where
  d0 : ℕ
  d1 : ℕ
  d2 : ℕ
  d3 : ℕ
deriving DecidableEq, Repr

/-- Point in the 4D field: `(i, j, k, l)` = (layer, variable, latitude,
longitude), exactly the tuple unpacking used throughout the source. -/
structure Pt where
  i : ℤ
  j : ℤ
  k : ℤ
  l : ℤ
deriving DecidableEq, Repr

/-- Embedding of `np.arange(a, b)` (integer step 1): `[a, a+1, ..., b-1]`. -/
def npArange (a b : ℤ) : List ℤ :=
  (List.range (b - a).toNat).map (fun t : ℕ => a + (t : ℤ))

/-- Insertion of an integer into a sorted list (helper for `npUnique`). -/
def insertSorted (x : ℤ) : List ℤ → List ℤ
  | [] => [x]
  | y :: ys => if x ≤ y then x :: y :: ys else y :: insertSorted x ys

/-- Insertion sort on integer lists (helper for `npUnique`). -/
def sortInts : List ℤ → List ℤ
  | [] => []
  | x :: xs => insertSorted x (sortInts xs)

/-- Embedding of `np.unique`: sort ascending and drop duplicates. -/
def npUnique (l : List ℤ) : List ℤ :=
  (sortInts l).dedup

/-- Embedding of `Predecessor.__validate_point` and `utils._validate_point`
(identical bodies): all four coordinates in `[0, dim)`. -/
def validPoint (shape : Sh) (point : Pt) : Bool :=
  decide (0 ≤ point.i ∧ point.i < (shape.d0 : ℤ)) &&
  decide (0 ≤ point.j ∧ point.j < (shape.d1 : ℤ)) &&
  decide (0 ≤ point.k ∧ point.k < (shape.d2 : ℤ)) &&
  decide (0 ≤ point.l ∧ point.l < (shape.d3 : ℤ))

/-- Embedding of `Predecessor.__calculate_bounds`: the upper clamps are
`min(shape[2], k+r+1)` and `min(shape[3], l+r+1)`. -/
def calculateBounds (shape : Sh) (point : Pt) (r : ℤ) (x_bound y_bound : Bool) :
    ℤ × ℤ × ℤ × ℤ :=
  let k := point.k
  let l := point.l
  let k_min := if y_bound then max (k - r) 0 else k - r
  let k_max := if y_bound then min (shape.d2 : ℤ) (k + r + 1) else k + r + 1
  let l_min := if x_bound then max (l - r) 0 else l - r
  let l_max := if x_bound then min (shape.d3 : ℤ) (l + r + 1) else l + r + 1
  (k_min, k_max, l_min, l_max)

/-- Embedding of `utils._calculate_bounds`: identical to
`Predecessor.__calculate_bounds` except that the bounded upper clamps are
`min(shape[2]-1, k+r+1)` and `min(shape[3]-1, l+r+1)`. -/
def calculateBoundsU (shape : Sh) (point : Pt) (r : ℤ) (x_bound y_bound : Bool) :
    ℤ × ℤ × ℤ × ℤ :=
  let k := point.k
  let l := point.l
  let k_min := if y_bound then max (k - r) 0 else k - r
  let k_max := if y_bound then min ((shape.d2 : ℤ) - 1) (k + r + 1) else k + r + 1
  let l_min := if x_bound then max (l - r) 0 else l - r
  let l_max := if x_bound then min ((shape.d3 : ℤ) - 1) (l + r + 1) else l + r + 1
  (k_min, k_max, l_min, l_max)

/-- Embedding of `Predecessor.__get_indices` and `utils._get_indices`
(identical bodies): modulo-reduce the two windows, deduplicate and sort
(`np.unique`), and fall back to `[k]` when the latitude set is empty.
No fallback is applied to the longitude set. -/
def getIndices (shape : Sh) (k_min k_max l_min l_max k : ℤ) :
    List ℤ × List ℤ :=
  let k_ind := npUnique ((npArange k_min k_max).map (fun t => t % (shape.d2 : ℤ)))
  let l_ind := npUnique ((npArange l_min l_max).map (fun t => t % (shape.d3 : ℤ)))
  let k_ind := if k_ind.isEmpty then [k] else k_ind
  (k_ind, l_ind)

/-- Embedding of `Predecessor.__calculate_positions` and
`utils._calculate_positions` (identical bodies).  Each of the four groups is
a `np.meshgrid(a, b, c, d).T.reshape(-1, 4)` product; with `xy` indexing and
the transpose, the row enumeration order is `d` outermost, then `c`,
then `a`, then `b` innermost, which the nested binds reproduce. -/
def calculatePositions (i j : ℤ) (shape : Sh) (k_ind l_ind : List ℤ)
    (k_min k l_min l : ℤ) : List Pt :=
  let g1 := l_ind.flatMap fun m =>
    k_ind.flatMap fun kk =>
      (npArange 0 i).flatMap fun ii =>
        (npArange 0 (shape.d1 : ℤ)).map fun jj => Pt.mk ii jj kk m
  let g2 := l_ind.flatMap fun m =>
    k_ind.flatMap fun kk =>
      (npArange 0 j).map fun jj => Pt.mk i jj kk m
  let g3 := (npArange l_min l).flatMap fun m =>
    k_ind.map fun kk => Pt.mk i j kk m
  let g4 := (npArange k_min k).map fun kk => Pt.mk i j kk l
  g1 ++ g2 ++ g3 ++ g4

/-- Embedding of `Predecessor.__flat_indices`: the flattening
`index = l * shape[1] * shape[2] * shape[0] + k * shape[1] * shape[0]
       + j * shape[0] + i`
applied to every position (here `l` is the longitude, `i` the layer). -/
def flatIndices (positions : List Pt) (shape : Sh) : List ℤ :=
  positions.map fun p =>
    p.l * (shape.d1 : ℤ) * (shape.d2 : ℤ) * (shape.d0 : ℤ) +
    p.k * (shape.d1 : ℤ) * (shape.d0 : ℤ) + p.j * (shape.d0 : ℤ) + p.i

/-- Embedding of `utils._flat_indices`: character-identical body to
`Predecessor.__flat_indices`, embedded separately because the spec speaks
about both flattening sites. -/
def flatIndicesU (positions : List Pt) (shape : Sh) : List ℤ :=
  positions.map fun p =>
    p.l * (shape.d1 : ℤ) * (shape.d2 : ℤ) * (shape.d0 : ℤ) +
    p.k * (shape.d1 : ℤ) * (shape.d0 : ℤ) + p.j * (shape.d0 : ℤ) + p.i

/-- Flat index of a single point under the source's flattening formula. -/
def flatIdx (shape : Sh) (p : Pt) : ℤ :=
  p.l * (shape.d1 : ℤ) * (shape.d2 : ℤ) * (shape.d0 : ℤ) +
  p.k * (shape.d1 : ℤ) * (shape.d0 : ℤ) + p.j * (shape.d0 : ℤ) + p.i

/-- Position list computed by `Predecessor.get_point_predecessors` after the
validation steps (bounds via `Predecessor.__calculate_bounds`). -/
def predecessorPositions (shape : Sh) (point : Pt) (radius : ℤ)
    (x_bound y_bound : Bool) : List Pt :=
  let b := calculateBounds shape point radius x_bound y_bound
  let ind := getIndices shape b.1 b.2.1 b.2.2.1 b.2.2.2 point.k
  calculatePositions point.i point.j shape ind.1 ind.2 b.1 point.k b.2.2.1 point.l

/-- Position list computed by the free function `core.predecessors` after the
validation steps (bounds via `utils._calculate_bounds`). -/
def corePredecessorPositions (shape : Sh) (point : Pt) (radius : ℤ)
    (x_bound y_bound : Bool) : List Pt :=
  let b := calculateBoundsU shape point radius x_bound y_bound
  let ind := getIndices shape b.1 b.2.1 b.2.2.1 b.2.2.2 point.k
  calculatePositions point.i point.j shape ind.1 ind.2 b.1 point.k b.2.2.1 point.l

/-- Embedding of `Predecessor.get_point_predecessors`.  Type-level checks of
the Python code (tuple of 4 ints, boolean flags) are enforced by the types;
the remaining dynamic checks are `radius <= 0` (raise) and the point-range
check (return empty, not an error). -/
def getPointPredecessors (shape : Sh) (point : Pt) (radius : ℤ)
    (x_bound y_bound : Bool) : Except String (List ℤ) :=
  if radius ≤ 0 then Except.error "Radius must be a positive integer"
  else if ¬ validPoint shape point then Except.ok []
  else Except.ok (flatIndices (predecessorPositions shape point radius x_bound y_bound) shape)

/-- Embedding of the free function `core.predecessors`: same validation and
pipeline as `Predecessor.get_point_predecessors`, but the bounds come from
`utils._calculate_bounds` and the flattening from `utils._flat_indices`. -/
def corePredecessors (shape : Sh) (point : Pt) (radius : ℤ)
    (x_bound y_bound : Bool) : Except String (List ℤ) :=
  if radius ≤ 0 then Except.error "Radius must be a positive integer"
  else if ¬ validPoint shape point then Except.ok []
  else Except.ok (flatIndicesU (corePredecessorPositions shape point radius x_bound y_bound) shape)

/-- State of a `Predecessor` object: the shape of its 4D matrix and the
one-shot cache `self.all_predecessors` (initialized to `None`). -/
structure PredecessorObj where
  shape : Sh
  all_predecessors : Option (List (List ℤ))
deriving DecidableEq, Repr

/-- Grid enumeration of `Predecessor.get_all_predecessors`: the literal
nested loop order layer, variable, longitude, latitude. -/
def allPoints (shape : Sh) : List Pt :=
  (List.range shape.d0).flatMap fun layer : ℕ =>
    (List.range shape.d1).flatMap fun v : ℕ =>
      (List.range shape.d3).flatMap fun longitude : ℕ =>
        (List.range shape.d2).map fun latitude : ℕ =>
          Pt.mk (layer : ℤ) (v : ℤ) (latitude : ℤ) (longitude : ℤ)

/-- Body of the first `Predecessor.get_all_predecessors` call: one
`get_point_predecessors` call per grid point; a raise inside the loop
propagates (the `Except` monad stops at the first error). -/
def computeAllPredecessors (shape : Sh) (radius : ℤ) (x_bound y_bound : Bool) :
    Except String (List (List ℤ)) :=
  (allPoints shape).mapM fun point =>
    getPointPredecessors shape point radius x_bound y_bound

/-- Embedding of `Predecessor.get_all_predecessors`: returns the cache when
present (before any validation), otherwise computes, stores and returns. -/
def getAllPredecessors (s : PredecessorObj) (radius : ℤ) (x_bound y_bound : Bool) :
    Except String (List (List ℤ)) × PredecessorObj :=
  match s.all_predecessors with
  | some res => (Except.ok res, s)
  | none =>
    match computeAllPredecessors s.shape radius x_bound y_bound with
    | Except.ok results => (Except.ok results, { s with all_predecessors := some results })
    | Except.error e => (Except.error e, s)

/-- Lexicographic rank of a point under the hierarchical order layer first,
then variable, then longitude, then latitude (the order in which the four
predecessor groups are actually "earlier"). -/
def lexIdx (shape : Sh) (p : Pt) : ℤ :=
  ((p.i * (shape.d1 : ℤ) + p.j) * (shape.d3 : ℤ) + p.l) * (shape.d2 : ℤ) + p.k

/-! Estimator embedding: matrices are row lists (`List (List ℚ)`), mirroring
the 2D numpy arrays of `PrecisionMatrix.py` and `core.precision_matrix`. -/

/-- Dot product of two rows (missing entries contribute nothing, matching
equal-length use in the source). -/
def dot (a b : List ℚ) : ℚ :=
  ((a.zip b).map fun x => x.1 * x.2).sum

/-- Column `j` of a row-list matrix, i.e. `A[:, j]`. -/
def col (A : List (List ℚ)) (j : ℕ) : List ℚ :=
  A.map fun row => row.getD j 0

/-- Column selection `A[:, p]` for an index list `p`. -/
def cols (A : List (List ℚ)) (p : List ℕ) : List (List ℚ) :=
  A.map fun row => p.map fun j => row.getD j 0

/-- Number of columns of a row-list matrix (length of the first row). -/
def numCols (A : List (List ℚ)) : ℕ :=
  (A.headD []).length

/-- Transpose of a row-list matrix (`A.T` in numpy). -/
def tp (A : List (List ℚ)) : List (List ℚ) :=
  (List.range (numCols A)).map fun j => col A j

/-- Matrix-vector product `A · v`. -/
def matVec (A : List (List ℚ)) (v : List ℚ) : List ℚ :=
  A.map fun row => dot row v

/-- Matrix-matrix product `A · B`. -/
def matMul (A B : List (List ℚ)) : List (List ℚ) :=
  A.map fun row => (List.range (numCols B)).map fun j => dot row (col B j)

/-- Add `α` to the diagonal of a square row-list matrix (`A + α·I`). -/
def addDiag (α : ℚ) (A : List (List ℚ)) : List (List ℚ) :=
  A.enum.map fun ir => ir.2.enum.map fun jx => if ir.1 = jx.1 then jx.2 + α else jx.2

/-- Determinant by Laplace expansion along the first row, with an explicit
size fuel so the recursion is structural. -/
def detAux : ℕ → List (List ℚ) → ℚ
  | 0, _ => 1
  | _ + 1, [] => 1
  | n + 1, r :: rows =>
    (r.enum.map fun jx =>
      (-1) ^ jx.1 * jx.2 * detAux n (rows.map fun row => row.eraseIdx jx.1)).sum

/-- Determinant of a row-list matrix. -/
def listDet (A : List (List ℚ)) : ℚ :=
  detAux A.length A

/-- Replace column `j` of `A` by the vector `b` (for Cramer's rule). -/
def replaceCol (A : List (List ℚ)) (j : ℕ) (b : List ℚ) : List (List ℚ) :=
  (A.zip b).map fun rb => rb.1.set j rb.2

/-- Solve the square linear system `A · x = b` by Cramer's rule (returns the
zero vector when `A` is singular; the ridge system below is positive
definite for `α > 0`, so that case does not arise in intended use). -/
def cramerSolve (A : List (List ℚ)) (b : List ℚ) : List ℚ :=
  (List.range A.length).map fun j => listDet (replaceCol A j b) / listDet A

/-- Modelled from the spec: the external collaborator
`sklearn.linear_model.Ridge(fit_intercept=False, alpha)` of `core.py` and
`PrecisionMatrix.py` is not repository code; its documented behavior — the
coefficients minimizing `‖y - X·w‖² + α·‖w‖²`, i.e. the solution of the
normal equations `(Xᵀ·X + α·I) · w = Xᵀ·y` — is embedded here. -/
def ridgeCoef (X : List (List ℚ)) (y : List ℚ) (α : ℚ) : List ℚ :=
  cramerSolve (addDiag α (matMul (tp X) X)) (matVec (tp X) y)

/-- Prediction `lr.predict(X)` of the fitted intercept-free model. -/
def ridgePredict (X : List (List ℚ)) (coef : List ℚ) : List ℚ :=
  X.map fun row => dot row coef

/-- Embedding of `np.var`: population variance (mean of squared deviations
from the mean; `np.var` uses `ddof=0`). -/
def npVar (v : List ℚ) : ℚ :=
  let μ := v.sum / (v.length : ℚ)
  ((v.map fun x => (x - μ) ^ 2).sum) / (v.length : ℚ)

/-- Residuals `y - lr.predict(X)` of the per-feature regression. -/
def residualsOf (Xb_ : List (List ℚ)) (p : List ℕ) (i : ℕ) (α : ℚ) : List ℚ :=
  let y := col Xb_ i
  let X := cols Xb_ p
  let coef := ridgeCoef X y α
  ((y.zip (ridgePredict X coef)).map fun ab => ab.1 - ab.2)

/-- COO entries `(row, col, value)` that iteration `i` of the estimator loop
appends to `(I, J, T)`: always the diagonal `(i, i, 1)`; for `i ≠ 0` also
one entry `(i, j, -coef_j)` per predecessor `j` (the loop branches on
`i == 0`, not on emptiness of `p`). -/
def perFeatureEntries (Xb_ : List (List ℚ)) (α : ℚ) (i : ℕ) (p : List ℕ) :
    List (ℕ × ℕ × ℚ) :=
  if i = 0 then [(i, i, 1)]
  else
    (i, i, 1) ::
      ((p.zip (ridgeCoef (cols Xb_ p) (col Xb_ i) α)).map fun jc => (i, jc.1, -jc.2))

/-- Value that iteration `i` of the estimator loop appends to `D`:
`1/np.var(Xb_[:, i])` for `i == 0`, else `1/np.var(residuals)`. -/
def perFeatureD (Xb_ : List (List ℚ)) (α : ℚ) (i : ℕ) (p : List ℕ) : ℚ :=
  if i = 0 then 1 / npVar (col Xb_ i)
  else 1 / npVar (residualsOf Xb_ p i α)

/-- Embedding of the shared per-feature loop of
`PrecisionMatrix.__calculate_precision_matrix` and `core.precision_matrix`
(their loop bodies are character-identical; they differ only in whether
`Xb_` is `Xb` or `Xb.T`, see `pmFactors` / `coreFactors`): the COO entry
lists for `T` and the diagonal value list for `D`, concatenated in loop
order. -/
def calculatePrecisionFactors (Xb_ : List (List ℚ)) (pred : List (List ℕ))
    (α : ℚ) : List (ℕ × ℕ × ℚ) × List ℚ :=
  ((pred.enum.map fun ip => perFeatureEntries Xb_ α ip.1 ip.2).flatten,
   pred.enum.map fun ip => perFeatureD Xb_ α ip.1 ip.2)

/-- Embedding of `PrecisionMatrix.__calculate_precision_matrix` (computed
eagerly at construction): it sets `Xb_ = self.Xb` (no transpose). -/
def pmFactors (Xb : List (List ℚ)) (pred : List (List ℕ)) (α : ℚ) :
    List (ℕ × ℕ × ℚ) × List ℚ :=
  calculatePrecisionFactors Xb pred α

/-- Factor computation inside `core.precision_matrix`: it sets
`Xb_ = Xb.T` before running the identical loop. -/
def coreFactors (Xb : List (List ℚ)) (pred : List (List ℕ)) (α : ℚ) :
    List (ℕ × ℕ × ℚ) × List ℚ :=
  calculatePrecisionFactors (tp Xb) pred α

/-- Dense `n × n` matrix of a COO entry list (`scipy.sparse.coo_matrix` sums
duplicate entries). -/
def cooToMatrix (n : ℕ) (entries : List (ℕ × ℕ × ℚ)) :
    Matrix (Fin n) (Fin n) ℚ :=
  Matrix.of fun a b =>
    ((entries.filter fun e => e.1 = (a : ℕ) ∧ e.2.1 = (b : ℕ)).map
      fun e => e.2.2).sum

/-- Dense `n × n` diagonal matrix of the `D` value list
(`coo_matrix((D, (id, id)))` with `id = arange(n)`). -/
def diagMatrix (n : ℕ) (D : List ℚ) : Matrix (Fin n) (Fin n) ℚ :=
  Matrix.of fun a b => if a = b then D.getD (a : ℕ) 0 else 0

/-- Embedding of `PrecisionMatrix.get_matrix`: combines the cached factors
as `T.T @ T + D`. -/
def pmGetMatrix (n : ℕ) (Xb : List (List ℚ)) (pred : List (List ℕ)) (α : ℚ) :
    Matrix (Fin n) (Fin n) ℚ :=
  let TD := pmFactors Xb pred α
  Matrix.transpose (cooToMatrix n TD.1) * cooToMatrix n TD.1 + diagMatrix n TD.2

/-- Embedding of the free function `core.precision_matrix`: builds the
factors from `Xb.T` and combines them as `T.T @ D @ T`. -/
def corePrecisionMatrix (n : ℕ) (Xb : List (List ℚ)) (pred : List (List ℕ))
    (α : ℚ) : Matrix (Fin n) (Fin n) ℚ :=
  let TD := coreFactors Xb pred α
  Matrix.transpose (cooToMatrix n TD.1) * diagMatrix n TD.2 * cooToMatrix n TD.1

/-! Helper lemmas about the numpy-style primitives. -/

theorem mem_npArange {a b x : ℤ} : x ∈ npArange a b ↔ a ≤ x ∧ x < b := by
  constructor
  · intro hx
    obtain ⟨t, ht, rfl⟩ := List.mem_map.mp hx
    have := List.mem_range.mp ht
    omega
  · rintro ⟨h1, h2⟩
    exact List.mem_map.mpr ⟨(x - a).toNat, List.mem_range.mpr (by omega), by omega⟩

theorem mem_insertSorted {x y : ℤ} {l : List ℤ} :
    y ∈ insertSorted x l ↔ y = x ∨ y ∈ l := by
  induction l with
  | nil => simp [insertSorted]
  | cons z zs ih =>
    simp only [insertSorted]
    split
    · simp
    · simp only [List.mem_cons, ih]
      tauto

theorem mem_sortInts {x : ℤ} {l : List ℤ} : x ∈ sortInts l ↔ x ∈ l := by
  induction l with
  | nil => simp [sortInts]
  | cons z zs ih => simp [sortInts, mem_insertSorted, ih]

theorem mem_npUnique {x : ℤ} {l : List ℤ} : x ∈ npUnique l ↔ x ∈ l := by
  simp [npUnique, List.mem_dedup, mem_sortInts]

theorem validPoint_iff {shape : Sh} {p : Pt} :
    validPoint shape p = true ↔
      (0 ≤ p.i ∧ p.i < (shape.d0 : ℤ)) ∧ (0 ≤ p.j ∧ p.j < (shape.d1 : ℤ)) ∧
      (0 ≤ p.k ∧ p.k < (shape.d2 : ℤ)) ∧ (0 ≤ p.l ∧ p.l < (shape.d3 : ℤ)) := by
  simp [validPoint, and_assoc]

theorem mem_kInd {shape : Sh} {k_min k_max l_min l_max k x : ℤ}
    (hd : 0 < shape.d2) (hk : 0 ≤ k ∧ k < (shape.d2 : ℤ)) :
    x ∈ (getIndices shape k_min k_max l_min l_max k).1 →
    0 ≤ x ∧ x < (shape.d2 : ℤ) := by
  intro hx
  simp only [getIndices] at hx
  split at hx
  · simp only [List.mem_singleton] at hx
    omega
  · rw [mem_npUnique] at hx
    simp only [List.mem_map] at hx
    obtain ⟨t, _, rfl⟩ := hx
    have hne : (shape.d2 : ℤ) ≠ 0 := by omega
    exact ⟨Int.emod_nonneg t hne, Int.emod_lt_of_pos t (by omega)⟩

theorem mem_lInd {shape : Sh} {k_min k_max l_min l_max k x : ℤ}
    (hd : 0 < shape.d3) :
    x ∈ (getIndices shape k_min k_max l_min l_max k).2 →
    0 ≤ x ∧ x < (shape.d3 : ℤ) := by
  intro hx
  simp only [getIndices] at hx
  rw [mem_npUnique] at hx
  simp only [List.mem_map] at hx
  obtain ⟨t, _, rfl⟩ := hx
  have hne : (shape.d3 : ℤ) ≠ 0 := by omega
  exact ⟨Int.emod_nonneg t hne, Int.emod_lt_of_pos t (by omega)⟩

/-- Membership characterization of the four position groups. -/
theorem mem_calculatePositions {q : Pt} {i j : ℤ} {shape : Sh}
    {k_ind l_ind : List ℤ} {k_min k l_min l : ℤ} :
    q ∈ calculatePositions i j shape k_ind l_ind k_min k l_min l ↔
      (q.l ∈ l_ind ∧ q.k ∈ k_ind ∧ (0 ≤ q.i ∧ q.i < i) ∧
        (0 ≤ q.j ∧ q.j < (shape.d1 : ℤ))) ∨
      (q.l ∈ l_ind ∧ q.k ∈ k_ind ∧ q.i = i ∧ (0 ≤ q.j ∧ q.j < j)) ∨
      ((l_min ≤ q.l ∧ q.l < l) ∧ q.k ∈ k_ind ∧ q.i = i ∧ q.j = j) ∨
      ((k_min ≤ q.k ∧ q.k < k) ∧ q.i = i ∧ q.j = j ∧ q.l = l) := by
  obtain ⟨qi, qj, qk, ql⟩ := q
  simp only [calculatePositions, List.mem_append, List.mem_flatMap, List.mem_map,
    mem_npArange, Pt.mk.injEq]
  constructor
  · rintro (((⟨m, hm, kk, hkk, ii, hii, jj, hjj, he⟩ | ⟨m, hm, kk, hkk, jj, hjj, he⟩) |
      ⟨m, hm, kk, hkk, he⟩) | ⟨kk, hkk, he⟩) <;>
      obtain ⟨rfl, rfl, rfl, rfl⟩ := he
    · exact Or.inl ⟨hm, hkk, by omega, by omega⟩
    · exact Or.inr (Or.inl ⟨hm, hkk, rfl, by omega⟩)
    · exact Or.inr (Or.inr (Or.inl ⟨by omega, hkk, rfl, rfl⟩))
    · exact Or.inr (Or.inr (Or.inr ⟨by omega, rfl, rfl, rfl⟩))
  · rintro (⟨hl, hk, hi, hj⟩ | ⟨hl, hk, rfl, hj⟩ | ⟨hl, hk, rfl, rfl⟩ | ⟨hk, rfl, rfl, rfl⟩)
    · exact Or.inl (Or.inl (Or.inl ⟨ql, hl, qk, hk, qi, by omega, qj, by omega, rfl, rfl, rfl, rfl⟩))
    · exact Or.inl (Or.inl (Or.inr ⟨ql, hl, qk, hk, qj, by omega, rfl, rfl, rfl, rfl⟩))
    · exact Or.inl (Or.inr ⟨ql, by omega, qk, hk, rfl, rfl, rfl, rfl⟩)
    · exact Or.inr ⟨qk, by omega, rfl, rfl, rfl, rfl⟩

/-- One significance level of a mixed-radix strict comparison. -/
theorem lex_step {a a' x x' d : ℤ} (hd : 0 < d) (h : a < a') (hx : x < d)
    (hx' : 0 ≤ x') : a * d + x < a' * d + x' := by
  nlinarith [mul_le_mul_of_nonneg_right (Int.add_one_le_iff.mpr h) (le_of_lt hd)]

/-- A multiple of `d` strictly between `-d` and `d` is zero. -/
theorem mul_cancel_bound {d y z : ℤ} (hd : 0 < d) (hz : z = d * y)
    (h1 : -d < z) (h2 : z < d) : y = 0 := by
  rcases lt_trichotomy y 0 with hy | hy | hy
  · nlinarith
  · exact hy
  · nlinarith

/-! Claim theorems for the bound computation, error handling, flattening
formula and longitude-fallback behavior. -/

/-- C5 (counterexample): the claim asserts that the bounded upper clamp is
`min(axis_size, coord+r+1)` at both bound-computation sites; at the
`utils._calculate_bounds` site, shape `(1,1,4,4)`, point `(0,0,3,3)`,
radius 1 gives `(2, 3, 2, 3)`, not the claimed `(2, 4, 2, 4)`. -/
theorem C5_counterexample :
    calculateBoundsU (Sh.mk 1 1 4 4) (Pt.mk 0 0 3 3) 1 true true ≠ (2, 4, 2, 4) ∧
    calculateBoundsU (Sh.mk 1 1 4 4) (Pt.mk 0 0 3 3) 1 true true = (2, 3, 2, 3) := by
  constructor
  · decide
  · decide

/-- C5 (amended): the claimed formulas (`k_min = max(k-r,0)` if bounded else
`k-r`, `k_max = min(K, k+r+1)` if bounded else `k+r+1`, symmetrically for
longitude) hold exactly at the `Predecessor.__calculate_bounds` site; the
`utils._calculate_bounds` site instead clamps the bounded upper bounds to
`axis_size - 1` (`min(K-1, k+r+1)` and `min(M-1, l+r+1)`). -/
theorem C5_amended (shape : Sh) (p : Pt) (r : ℤ) (xb yb : Bool) :
    calculateBounds shape p r xb yb =
      ((if yb then max (p.k - r) 0 else p.k - r),
       (if yb then min (shape.d2 : ℤ) (p.k + r + 1) else p.k + r + 1),
       (if xb then max (p.l - r) 0 else p.l - r),
       (if xb then min (shape.d3 : ℤ) (p.l + r + 1) else p.l + r + 1)) ∧
    calculateBoundsU shape p r xb yb =
      ((if yb then max (p.k - r) 0 else p.k - r),
       (if yb then min ((shape.d2 : ℤ) - 1) (p.k + r + 1) else p.k + r + 1),
       (if xb then max (p.l - r) 0 else p.l - r),
       (if xb then min ((shape.d3 : ℤ) - 1) (p.l + r + 1) else p.l + r + 1)) :=
  ⟨rfl, rfl⟩

/-- C8: a type-valid point with some coordinate outside `[0, dim)` makes both
`get_point_predecessors` and the free function `predecessors` return an empty
sequence without raising (given a valid radius), while a non-positive radius
raises in both; the remaining type checks of the claim (4-tuple of ints,
boolean flags) are enforced by the embedding types. -/
theorem C8_out_of_range_empty (shape : Sh) (p : Pt) (r : ℤ) (xb yb : Bool)
    (hr : 1 ≤ r) (hv : validPoint shape p = false) :
    getPointPredecessors shape p r xb yb = Except.ok [] ∧
    corePredecessors shape p r xb yb = Except.ok [] ∧
    (∀ r2 : ℤ, r2 ≤ 0 →
      getPointPredecessors shape p r2 xb yb =
        Except.error "Radius must be a positive integer" ∧
      corePredecessors shape p r2 xb yb =
        Except.error "Radius must be a positive integer") := by
  refine ⟨?_, ?_, ?_⟩
  · simp [getPointPredecessors, hv]
    omega
  · simp [corePredecessors, hv]
    omega
  · intro r2 hr2
    constructor
    · simp [getPointPredecessors, hr2]
    · simp [corePredecessors, hr2]

/-- C8 (witness): the theorem applied to shape `(1,1,1,1)` and the
out-of-range point `(5,0,0,0)` with radius 1. -/
theorem C8_out_of_range_empty_witness :
    (1 : ℤ) ≤ 1 ∧ validPoint (Sh.mk 1 1 1 1) (Pt.mk 5 0 0 0) = false ∧
    (getPointPredecessors (Sh.mk 1 1 1 1) (Pt.mk 5 0 0 0) 1 true true = Except.ok [] ∧
     corePredecessors (Sh.mk 1 1 1 1) (Pt.mk 5 0 0 0) 1 true true = Except.ok [] ∧
     (∀ r2 : ℤ, r2 ≤ 0 →
       getPointPredecessors (Sh.mk 1 1 1 1) (Pt.mk 5 0 0 0) r2 true true =
         Except.error "Radius must be a positive integer" ∧
       corePredecessors (Sh.mk 1 1 1 1) (Pt.mk 5 0 0 0) r2 true true =
         Except.error "Radius must be a positive integer")) :=
  ⟨le_refl 1, by decide,
   C8_out_of_range_empty (Sh.mk 1 1 1 1) (Pt.mk 5 0 0 0) 1 true true (le_refl 1) (by decide)⟩

/-- C9: both flattening sites (`Predecessor.__flat_indices` and
`utils._flat_indices`) map every position `(l, v, k, m)` to the flat index
`m·(V·K·L) + k·(V·L) + v·L + l` — layer varies fastest, longitude slowest —
and the two sites agree on every input. -/
theorem C9_flatten_formula (positions : List Pt) (shape : Sh) :
    flatIndices positions shape =
      positions.map (fun q =>
        q.l * ((shape.d1 : ℤ) * (shape.d2 : ℤ) * (shape.d0 : ℤ)) +
        q.k * ((shape.d1 : ℤ) * (shape.d0 : ℤ)) + q.j * (shape.d0 : ℤ) + q.i) ∧
    flatIndicesU positions shape = flatIndices positions shape := by
  constructor
  · unfold flatIndices
    congr 1
    funext q
    ring
  · rfl

/-- C10: the empty-window fallback exists only on the latitude axis: an empty
latitude window yields the fallback `[k]`, while an empty modulo-reduced
longitude window stays empty (no fallback to the point's own longitude), and
with an empty longitude index set every position produced by
`_calculate_positions` comes from groups 3/4 (it keeps the query's layer `i`
and variable `j`), so the groups ranging over the spatial window contribute
no positions. -/
theorem C10_no_longitude_fallback (shape : Sh) (k_min k_max l_min l_max k i j l : ℤ) :
    (npArange k_min k_max = [] →
      (getIndices shape k_min k_max l_min l_max k).1 = [k]) ∧
    ((getIndices shape k_min k_max l_min l_max k).2 = [] →
      ∀ q ∈ calculatePositions i j shape
          (getIndices shape k_min k_max l_min l_max k).1
          (getIndices shape k_min k_max l_min l_max k).2 k_min k l_min l,
        q.i = i ∧ q.j = j) := by
  constructor
  · intro h
    simp [getIndices, h, npUnique, sortInts]
  · intro h q hq
    rw [mem_calculatePositions] at hq
    rw [h] at hq
    simp only [List.not_mem_nil, false_and, false_or] at hq
    rcases hq with ⟨_, _, hi, hj⟩ | ⟨_, hi, hj, _⟩
    · exact ⟨hi, hj⟩
    · exact ⟨hi, hj⟩

/-- C10 (witness): with longitude axis size 1 and the `utils` bound clamp
(shape `(1,1,2,1)`, point `(0,0,1,0)`, radius 1, both axes bounded, giving
`l_min = 0`, `l_max = min(M-1, l+r+1) = 0`), the longitude index set is
empty and the theorem applies. -/
theorem C10_no_longitude_fallback_witness :
    calculateBoundsU (Sh.mk 1 1 2 1) (Pt.mk 0 0 1 0) 1 true true = (0, 1, 0, 0) ∧
    (getIndices (Sh.mk 1 1 2 1) 0 1 0 0 1).2 = [] ∧
    (∀ q ∈ calculatePositions 0 0 (Sh.mk 1 1 2 1)
        (getIndices (Sh.mk 1 1 2 1) 0 1 0 0 1).1
        (getIndices (Sh.mk 1 1 2 1) 0 1 0 0 1).2 0 1 0 0,
      q.i = 0 ∧ q.j = 0) :=
  ⟨by decide, by decide,
   (C10_no_longitude_fallback (Sh.mk 1 1 2 1) 0 1 0 0 1 0 0 0).2 (by decide)⟩

/-! Strict-precedence and range lemmas for the position pipeline. -/

/-- Every produced position strictly precedes the query point in the
lexicographic (layer, variable, longitude, latitude) order, and its flat
index under the source's flattening formula differs from the query's. -/
theorem positions_strict_precede (shape : Sh) (k_min k_max l_min l_max : ℤ)
    (p : Pt) (hv : validPoint shape p = true) :
    ∀ q ∈ calculatePositions p.i p.j shape
        (getIndices shape k_min k_max l_min l_max p.k).1
        (getIndices shape k_min k_max l_min l_max p.k).2
        k_min p.k l_min p.l,
      lexIdx shape q < lexIdx shape p ∧ flatIdx shape q ≠ flatIdx shape p := by
  intro q hq
  rw [validPoint_iff] at hv
  obtain ⟨⟨hi0, hi1⟩, ⟨hj0, hj1⟩, ⟨hk0, hk1⟩, ⟨hl0, hl1⟩⟩ := hv
  have hd0 : (0 : ℤ) < (shape.d0 : ℤ) := by omega
  have hd1 : (0 : ℤ) < (shape.d1 : ℤ) := by omega
  have hd2 : (0 : ℤ) < (shape.d2 : ℤ) := by omega
  have hd3 : (0 : ℤ) < (shape.d3 : ℤ) := by omega
  rw [mem_calculatePositions] at hq
  obtain ⟨qi, qj, qk, ql⟩ := q
  simp only at hq
  rcases hq with ⟨hml, hmk, hqi, hqj⟩ | ⟨hml, hmk, hqi, hqj⟩ |
    ⟨hml, hmk, hqi, hqj⟩ | ⟨hmk, hqi, hqj, hql⟩
  · -- group 1: earlier layer, any variable, window latitude and longitude
    obtain ⟨hk0', hk1'⟩ := mem_kInd (by omega) ⟨hk0, hk1⟩ hmk
    obtain ⟨hl0', hl1'⟩ := mem_lInd (by omega) hml
    constructor
    · have s1 : qi * (shape.d1 : ℤ) + qj < p.i * (shape.d1 : ℤ) + p.j :=
        lex_step hd1 hqi.2 hqj.2 hj0
      have s2 := lex_step hd3 s1 hl1' hl0
      have s3 := lex_step hd2 s2 hk1' hk0
      simpa [lexIdx] using s3
    · intro heq
      simp only [flatIdx] at heq
      have hz : qi - p.i = (shape.d0 : ℤ) *
          ((p.l - ql) * (shape.d1 : ℤ) * (shape.d2 : ℤ) +
           (p.k - qk) * (shape.d1 : ℤ) + (p.j - qj)) := by
        linear_combination heq
      have hy := mul_cancel_bound hd0 hz (by omega) (by omega)
      rw [hy, mul_zero] at hz
      omega
  · -- group 2: same layer, earlier variable, window latitude and longitude
    obtain ⟨hk0', hk1'⟩ := mem_kInd (by omega) ⟨hk0, hk1⟩ hmk
    obtain ⟨hl0', hl1'⟩ := mem_lInd (by omega) hml
    subst hqi
    constructor
    · have s1 : p.i * (shape.d1 : ℤ) + qj < p.i * (shape.d1 : ℤ) + p.j := by
        linarith [hqj.2]
      have s2 := lex_step hd3 s1 hl1' hl0
      have s3 := lex_step hd2 s2 hk1' hk0
      simpa [lexIdx] using s3
    · intro heq
      simp only [flatIdx] at heq
      have hz1 : (shape.d0 : ℤ) *
          ((ql - p.l) * (shape.d1 : ℤ) * (shape.d2 : ℤ) +
           (qk - p.k) * (shape.d1 : ℤ) + (qj - p.j)) = 0 := by
        linear_combination heq
      have hz1' := (mul_eq_zero.mp hz1).resolve_left (by omega)
      have hz2 : qj - p.j = (shape.d1 : ℤ) *
          ((p.l - ql) * (shape.d2 : ℤ) + (p.k - qk)) := by
        linear_combination hz1'
      have hy := mul_cancel_bound hd1 hz2 (by omega) (by omega)
      rw [hy, mul_zero] at hz2
      omega
  · -- group 3: same layer and variable, earlier longitude, window latitude
    obtain ⟨hk0', hk1'⟩ := mem_kInd (by omega) ⟨hk0, hk1⟩ hmk
    subst hqi; subst hqj
    constructor
    · have s2 : (p.i * (shape.d1 : ℤ) + p.j) * (shape.d3 : ℤ) + ql <
          (p.i * (shape.d1 : ℤ) + p.j) * (shape.d3 : ℤ) + p.l := by
        linarith [hml.2]
      have s3 := lex_step hd2 s2 hk1' hk0
      simpa [lexIdx] using s3
    · have hlt : ql * (shape.d1 : ℤ) * (shape.d2 : ℤ) * (shape.d0 : ℤ) +
          qk * (shape.d1 : ℤ) * (shape.d0 : ℤ) <
          p.l * (shape.d1 : ℤ) * (shape.d2 : ℤ) * (shape.d0 : ℤ) +
          p.k * (shape.d1 : ℤ) * (shape.d0 : ℤ) := by
        nlinarith [mul_pos (mul_pos hd1 hd2) hd0, mul_pos hd1 hd0,
          mul_le_mul_of_nonneg_right (Int.add_one_le_iff.mpr hml.2)
            (le_of_lt (mul_pos (mul_pos hd1 hd2) hd0)),
          mul_le_mul_of_nonneg_right (Int.add_one_le_iff.mpr hk1')
            (le_of_lt (mul_pos hd1 hd0))]
      intro heq
      simp only [flatIdx] at heq
      nlinarith [hlt]
  · -- group 4: same layer, variable and longitude, earlier latitude
    subst hqi; subst hqj; subst hql
    constructor
    · simp only [lexIdx]
      linarith [hmk.2]
    · intro heq
      simp only [flatIdx] at heq
      have hz : (qk - p.k) * ((shape.d1 : ℤ) * (shape.d0 : ℤ)) = 0 := by
        linear_combination heq
      have := (mul_eq_zero.mp hz).resolve_right (by positivity)
      omega

/-- With non-negative window lower bounds (the bounded case), every produced
position has all four components inside the field. -/
theorem positions_in_range (shape : Sh) (k_min k_max l_min l_max : ℤ)
    (p : Pt) (hv : validPoint shape p = true)
    (hkm : 0 ≤ k_min) (hlm : 0 ≤ l_min) :
    ∀ q ∈ calculatePositions p.i p.j shape
        (getIndices shape k_min k_max l_min l_max p.k).1
        (getIndices shape k_min k_max l_min l_max p.k).2
        k_min p.k l_min p.l,
      (0 ≤ q.i ∧ q.i < (shape.d0 : ℤ)) ∧ (0 ≤ q.j ∧ q.j < (shape.d1 : ℤ)) ∧
      (0 ≤ q.k ∧ q.k < (shape.d2 : ℤ)) ∧ (0 ≤ q.l ∧ q.l < (shape.d3 : ℤ)) := by
  intro q hq
  rw [validPoint_iff] at hv
  obtain ⟨⟨hi0, hi1⟩, ⟨hj0, hj1⟩, ⟨hk0, hk1⟩, ⟨hl0, hl1⟩⟩ := hv
  rw [mem_calculatePositions] at hq
  obtain ⟨qi, qj, qk, ql⟩ := q
  simp only at hq ⊢
  rcases hq with ⟨hml, hmk, hqi, hqj⟩ | ⟨hml, hmk, hqi, hqj⟩ |
    ⟨hml, hmk, hqi, hqj⟩ | ⟨hmk, hqi, hqj, hql⟩
  · obtain ⟨hk0', hk1'⟩ := mem_kInd (by omega) ⟨hk0, hk1⟩ hmk
    obtain ⟨hl0', hl1'⟩ := mem_lInd (by omega) hml
    exact ⟨⟨hqi.1, by omega⟩, hqj, ⟨hk0', hk1'⟩, ⟨hl0', hl1'⟩⟩
  · obtain ⟨hk0', hk1'⟩ := mem_kInd (by omega) ⟨hk0, hk1⟩ hmk
    obtain ⟨hl0', hl1'⟩ := mem_lInd (by omega) hml
    exact ⟨⟨by omega, by omega⟩, ⟨hqj.1, by omega⟩, ⟨hk0', hk1'⟩, ⟨hl0', hl1'⟩⟩
  · obtain ⟨hk0', hk1'⟩ := mem_kInd (by omega) ⟨hk0, hk1⟩ hmk
    exact ⟨⟨by omega, by omega⟩, ⟨by omega, by omega⟩, ⟨hk0', hk1'⟩,
      ⟨by omega, by omega⟩⟩
  · exact ⟨⟨by omega, by omega⟩, ⟨by omega, by omega⟩, ⟨by omega, by omega⟩,
      ⟨by omega, by omega⟩⟩

/-- A point with all components in range has its flat index in
`[0, L·V·K·M)`. -/
theorem flatIdx_range (shape : Sh) (q : Pt)
    (h : (0 ≤ q.i ∧ q.i < (shape.d0 : ℤ)) ∧ (0 ≤ q.j ∧ q.j < (shape.d1 : ℤ)) ∧
      (0 ≤ q.k ∧ q.k < (shape.d2 : ℤ)) ∧ (0 ≤ q.l ∧ q.l < (shape.d3 : ℤ))) :
    0 ≤ flatIdx shape q ∧
      flatIdx shape q < (shape.d0 : ℤ) * (shape.d1 : ℤ) * (shape.d2 : ℤ) * (shape.d3 : ℤ) := by
  obtain ⟨⟨hi0, hi1⟩, ⟨hj0, hj1⟩, ⟨hk0, hk1⟩, ⟨hl0, hl1⟩⟩ := h
  have hA : (0 : ℤ) ≤ (shape.d1 : ℤ) * (shape.d2 : ℤ) * (shape.d0 : ℤ) := by positivity
  have hB : (0 : ℤ) ≤ (shape.d1 : ℤ) * (shape.d0 : ℤ) := by positivity
  have hC : (0 : ℤ) ≤ (shape.d0 : ℤ) := by positivity
  constructor
  · simp only [flatIdx]
    have t1 : 0 ≤ q.l * (shape.d1 : ℤ) * (shape.d2 : ℤ) * (shape.d0 : ℤ) := by
      nlinarith
    have t2 : 0 ≤ q.k * (shape.d1 : ℤ) * (shape.d0 : ℤ) := by nlinarith
    have t3 : 0 ≤ q.j * (shape.d0 : ℤ) := by nlinarith
    linarith
  · have t1 : 0 ≤ ((shape.d3 : ℤ) - 1 - q.l) * ((shape.d1 : ℤ) * (shape.d2 : ℤ) * (shape.d0 : ℤ)) :=
      mul_nonneg (by omega) hA
    have t2 : 0 ≤ ((shape.d2 : ℤ) - 1 - q.k) * ((shape.d1 : ℤ) * (shape.d0 : ℤ)) :=
      mul_nonneg (by omega) hB
    have t3 : 0 ≤ ((shape.d1 : ℤ) - 1 - q.j) * (shape.d0 : ℤ) :=
      mul_nonneg (by omega) hC
    have t4 : (1 : ℤ) ≤ (shape.d0 : ℤ) - q.i := by omega
    have hid : flatIdx shape q +
        (((shape.d3 : ℤ) - 1 - q.l) * ((shape.d1 : ℤ) * (shape.d2 : ℤ) * (shape.d0 : ℤ)) +
         ((shape.d2 : ℤ) - 1 - q.k) * ((shape.d1 : ℤ) * (shape.d0 : ℤ)) +
         ((shape.d1 : ℤ) - 1 - q.j) * (shape.d0 : ℤ) + ((shape.d0 : ℤ) - q.i)) =
        (shape.d0 : ℤ) * (shape.d1 : ℤ) * (shape.d2 : ℤ) * (shape.d3 : ℤ) := by
      simp only [flatIdx]
      ring
    linarith

/-- C1 (counterexample): the claim asserts every returned flat index is
strictly below the query's flat index `m·V·K·L + k·V·L + v·L + l`.  For
shape `(2,1,1,2)`, point `(1,0,0,0)`, radius 1, both axes bounded, the query
has flat index 1 but `get_point_predecessors` returns `[0, 2]`, containing
the index `2 ≥ 1`. -/
theorem C1_counterexample :
    getPointPredecessors (Sh.mk 2 1 1 2) (Pt.mk 1 0 0 0) 1 true true =
      Except.ok [0, 2] ∧
    flatIdx (Sh.mk 2 1 1 2) (Pt.mk 1 0 0 0) = 1 ∧ ¬ ((2 : ℤ) < 1) := by
  refine ⟨by rfl, by rfl, by omega⟩

/-- C1 (amended): predecessors strictly precede the query point in the
hierarchical (layer, variable, longitude, latitude) order — not in the flat
index order of the flattening formula — and the query point's own flat index
never appears in the result of `get_point_predecessors` nor of the free
function `predecessors`. -/
theorem C1_amended (shape : Sh) (p : Pt) (r : ℤ) (xb yb : Bool)
    (hr : 1 ≤ r) (hv : validPoint shape p = true) :
    (getPointPredecessors shape p r xb yb =
      Except.ok (flatIndices (predecessorPositions shape p r xb yb) shape)) ∧
    (∀ q ∈ predecessorPositions shape p r xb yb,
      lexIdx shape q < lexIdx shape p) ∧
    (∀ idx ∈ flatIndices (predecessorPositions shape p r xb yb) shape,
      idx ≠ flatIdx shape p) ∧
    (corePredecessors shape p r xb yb =
      Except.ok (flatIndicesU (corePredecessorPositions shape p r xb yb) shape)) ∧
    (∀ q ∈ corePredecessorPositions shape p r xb yb,
      lexIdx shape q < lexIdx shape p) ∧
    (∀ idx ∈ flatIndicesU (corePredecessorPositions shape p r xb yb) shape,
      idx ≠ flatIdx shape p) := by
  have hmain : ∀ q ∈ predecessorPositions shape p r xb yb,
      lexIdx shape q < lexIdx shape p ∧ flatIdx shape q ≠ flatIdx shape p :=
    positions_strict_precede shape _ _ _ _ p hv
  have hmainU : ∀ q ∈ corePredecessorPositions shape p r xb yb,
      lexIdx shape q < lexIdx shape p ∧ flatIdx shape q ≠ flatIdx shape p :=
    positions_strict_precede shape _ _ _ _ p hv
  refine ⟨?_, fun q hq => (hmain q hq).1, ?_, ?_, fun q hq => (hmainU q hq).1, ?_⟩
  · simp [getPointPredecessors, hv]
    omega
  · intro idx hidx
    obtain ⟨q, hq, rfl⟩ := List.mem_map.mp hidx
    exact (hmain q hq).2
  · simp [corePredecessors, hv]
    omega
  · intro idx hidx
    obtain ⟨q, hq, rfl⟩ := List.mem_map.mp hidx
    exact (hmainU q hq).2

/-- C1 (witness): the amended theorem applied to shape `(2,1,1,2)`, point
`(1,0,0,0)`, radius 1, both axes bounded. -/
theorem C1_amended_witness :
    (1 : ℤ) ≤ 1 ∧ validPoint (Sh.mk 2 1 1 2) (Pt.mk 1 0 0 0) = true ∧
    (∀ idx ∈ flatIndices
        (predecessorPositions (Sh.mk 2 1 1 2) (Pt.mk 1 0 0 0) 1 true true)
        (Sh.mk 2 1 1 2),
      idx ≠ flatIdx (Sh.mk 2 1 1 2) (Pt.mk 1 0 0 0)) :=
  ⟨le_refl 1, by rfl,
   (C1_amended (Sh.mk 2 1 1 2) (Pt.mk 1 0 0 0) 1 true true (le_refl 1)
     (by rfl)).2.2.1⟩

/-- C6 (counterexample): the claim asserts every returned flat index lies in
`[0, L·V·K·M)` for any flag setting; with the longitude axis periodic
(`x_bound = False`), shape `(1,1,1,2)`, point `(0,0,0,0)`, radius 1, the
result is `[-1]`, a negative index. -/
theorem C6_counterexample :
    getPointPredecessors (Sh.mk 1 1 1 2) (Pt.mk 0 0 0 0) 1 false true =
      Except.ok [-1] ∧ ¬ ((0 : ℤ) ≤ -1) := by
  refine ⟨by rfl, by omega⟩

/-- C6 (amended): with both axes bounded (`x_bound = y_bound = True`) every
flat index returned by `get_point_predecessors` and by the free function
`predecessors` lies in `[0, L·V·K·M)`; with a periodic axis, negative
indices can be returned. -/
theorem C6_amended (shape : Sh) (p : Pt) (r : ℤ)
    (hr : 1 ≤ r) (hv : validPoint shape p = true) :
    (∀ idx ∈ flatIndices (predecessorPositions shape p r true true) shape,
      0 ≤ idx ∧ idx < (shape.d0 : ℤ) * (shape.d1 : ℤ) * (shape.d2 : ℤ) * (shape.d3 : ℤ)) ∧
    (∀ idx ∈ flatIndicesU (corePredecessorPositions shape p r true true) shape,
      0 ≤ idx ∧ idx < (shape.d0 : ℤ) * (shape.d1 : ℤ) * (shape.d2 : ℤ) * (shape.d3 : ℤ)) := by
  constructor
  · intro idx hidx
    obtain ⟨q, hq, rfl⟩ := List.mem_map.mp hidx
    exact flatIdx_range shape q
      (positions_in_range shape _ _ _ _ p hv (le_max_right _ _) (le_max_right _ _) q hq)
  · intro idx hidx
    obtain ⟨q, hq, rfl⟩ := List.mem_map.mp hidx
    exact flatIdx_range shape q
      (positions_in_range shape _ _ _ _ p hv (le_max_right _ _) (le_max_right _ _) q hq)

/-- C6 (witness): the amended theorem applied to shape `(2,1,1,2)`, point
`(1,0,0,0)`, radius 1. -/
theorem C6_amended_witness :
    (1 : ℤ) ≤ 1 ∧ validPoint (Sh.mk 2 1 1 2) (Pt.mk 1 0 0 0) = true ∧
    (∀ idx ∈ flatIndices
        (predecessorPositions (Sh.mk 2 1 1 2) (Pt.mk 1 0 0 0) 1 true true)
        (Sh.mk 2 1 1 2),
      0 ≤ idx ∧ idx < (2 : ℤ) * 1 * 1 * 2) :=
  ⟨le_refl 1, by rfl,
   by
    have h := (C6_amended (Sh.mk 2 1 1 2) (Pt.mk 1 0 0 0) 1 (le_refl 1) (by rfl)).1
    simpa using h⟩

/-! Machinery for `get_all_predecessors` (claim C4). -/

theorem mapM_eq_map {α β : Type} (g : α → β) (f : α → Except String β) :
    ∀ xs : List α, (∀ a ∈ xs, f a = Except.ok (g a)) →
      xs.mapM f = Except.ok (xs.map g) := by
  intro xs
  induction xs with
  | nil => intro _; rfl
  | cons a as ih =>
    intro h
    rw [List.mapM_cons, h a (List.mem_cons_self a as),
      ih (fun b hb => h b (List.mem_cons_of_mem a hb))]
    rfl

theorem length_flatMap_const {α β : Type} (c : ℕ) (f : α → List β) :
    ∀ xs : List α, (∀ a ∈ xs, (f a).length = c) →
      (xs.flatMap f).length = xs.length * c := by
  intro xs
  induction xs with
  | nil => intro _; simp
  | cons a as ih =>
    intro h
    simp only [List.flatMap_cons, List.length_append, List.length_cons]
    rw [h a (List.mem_cons_self a as), ih (fun b hb => h b (List.mem_cons_of_mem a hb))]
    ring

theorem getElem_flatMap_const {α β : Type} (c : ℕ) (f : α → List β) :
    ∀ (xs : List α), (∀ a ∈ xs, (f a).length = c) →
      ∀ (i x : ℕ), x < c → ∀ (hi : i < xs.length),
        (xs.flatMap f)[i * c + x]? = (f xs[i])[x]? := by
  intro xs
  induction xs with
  | nil => intro _ i x _ hi; exact absurd hi (by simp)
  | cons a as ih =>
    intro h i x hx hi
    rw [List.flatMap_cons]
    cases i with
    | zero =>
      simp only [List.getElem_cons_zero, Nat.zero_mul, Nat.zero_add]
      rw [List.getElem?_append,
        if_pos (by rw [h a (List.mem_cons_self a as)]; exact hx)]
    | succ i =>
      have hlen : (f a).length = c := h a (List.mem_cons_self a as)
      have harith : (i + 1) * c + x = (f a).length + (i * c + x) := by
        rw [hlen]; ring
      rw [harith, List.getElem?_append_right (by omega)]
      have he : (f a).length + (i * c + x) - (f a).length = i * c + x := by omega
      rw [he, List.getElem_cons_succ]
      exact ih (fun b hb => h b (List.mem_cons_of_mem a hb)) i x hx (by simpa using hi)

theorem length_allPoints (shape : Sh) :
    (allPoints shape).length = shape.d0 * shape.d1 * shape.d2 * shape.d3 := by
  unfold allPoints
  rw [length_flatMap_const (shape.d1 * shape.d3 * shape.d2) _ _ ?_]
  · rw [List.length_range]; ring
  · intro a _
    rw [length_flatMap_const (shape.d3 * shape.d2) _ _ ?_]
    · rw [List.length_range]; ring
    · intro b _
      rw [length_flatMap_const shape.d2 _ _ ?_]
      · rw [List.length_range]
      · intro d _
        simp

/-- Strict mixed-radix upper bound for natural numbers. -/
theorem nat_lex_step {a a' x c : ℕ} (h : a < a') (hx : x < c) :
    a * c + x < a' * c := by
  calc a * c + x < a * c + c := by omega
  _ = (a + 1) * c := by ring
  _ ≤ a' * c := Nat.mul_le_mul_right c h

/-- The grid point stored by `get_all_predecessors` at loop position
`((layer·V + v)·M + lon)·K + lat` is `(layer, v, lat, lon)`. -/
theorem allPoints_getElem (shape : Sh) (li v lat lon : ℕ)
    (h0 : li < shape.d0) (h1 : v < shape.d1) (h2 : lat < shape.d2)
    (h3 : lon < shape.d3) :
    (allPoints shape)[((li * shape.d1 + v) * shape.d3 + lon) * shape.d2 + lat]? =
      some (Pt.mk (li : ℤ) (v : ℤ) (lat : ℤ) (lon : ℤ)) := by
  unfold allPoints
  have hc3 : ∀ b : ℕ, ((List.range shape.d2).map
      (fun latitude : ℕ => Pt.mk (b : ℤ) (b : ℤ) (latitude : ℤ) (b : ℤ))).length =
      shape.d2 := by simp
  have hrest1 : (v * shape.d3 + lon) * shape.d2 + lat < shape.d1 * shape.d3 * shape.d2 :=
    nat_lex_step (nat_lex_step h1 h3) h2
  have e1 : ((li * shape.d1 + v) * shape.d3 + lon) * shape.d2 + lat =
      li * (shape.d1 * shape.d3 * shape.d2) + ((v * shape.d3 + lon) * shape.d2 + lat) := by
    ring
  rw [e1, getElem_flatMap_const (shape.d1 * shape.d3 * shape.d2) _ _ ?hc _ _ hrest1
    (by rwa [List.length_range])]
  case hc =>
    intro a _
    rw [length_flatMap_const (shape.d3 * shape.d2) _ _ ?_, List.length_range]
    · ring
    · intro b _
      rw [length_flatMap_const shape.d2 _ _ (fun d _ => by simp), List.length_range]
  rw [List.getElem_range]
  have hrest2 : lon * shape.d2 + lat < shape.d3 * shape.d2 := nat_lex_step h3 h2
  have e2 : (v * shape.d3 + lon) * shape.d2 + lat =
      v * (shape.d3 * shape.d2) + (lon * shape.d2 + lat) := by ring
  rw [e2, getElem_flatMap_const (shape.d3 * shape.d2) _ _ ?hc2 _ _ hrest2
    (by rwa [List.length_range])]
  case hc2 =>
    intro b _
    rw [length_flatMap_const shape.d2 _ _ (fun d _ => by simp), List.length_range]
  rw [List.getElem_range]
  rw [getElem_flatMap_const shape.d2 _ _ (fun d _ => by simp) _ _ h2
    (by rwa [List.length_range])]
  rw [List.getElem_range]
  rw [List.getElem?_map, List.getElem?_range h2]
  rfl

/-- Every point of the grid enumeration is valid for the shape. -/
theorem allPoints_valid (shape : Sh) :
    ∀ p ∈ allPoints shape, validPoint shape p = true := by
  intro p hp
  unfold allPoints at hp
  simp only [List.mem_flatMap, List.mem_map, List.mem_range] at hp
  obtain ⟨li, hli, v, hv, lon, hlon, lat, hlat, rfl⟩ := hp
  rw [validPoint_iff]
  refine ⟨⟨?_, ?_⟩, ⟨?_, ?_⟩, ⟨?_, ?_⟩, ⟨?_, ?_⟩⟩ <;>
    simp only [] <;> omega

/-- With a valid radius, `get_point_predecessors` succeeds on valid points
with the pipeline result. -/
theorem getPointPredecessors_ok_of_valid (shape : Sh) (p : Pt) (r : ℤ)
    (xb yb : Bool) (hr : 1 ≤ r) (hv : validPoint shape p = true) :
    getPointPredecessors shape p r xb yb =
      Except.ok (flatIndices (predecessorPositions shape p r xb yb) shape) := by
  simp [getPointPredecessors, hv]
  omega

/-- C4: on a fresh `Predecessor` object, `get_all_predecessors` succeeds with
exactly `L·V·K·M` entries; the entry at loop position
`((layer·V + v)·M + lon)·K + lat` is the predecessor list of point
`(layer, v, lat, lon)` (nested order layer, variable, longitude, latitude);
and every subsequent call — with any radius and flag arguments whatsoever —
returns the identical cached result and leaves the state unchanged. -/
theorem C4_all_predecessors (shape : Sh) (r : ℤ) (xb yb : Bool) (hr : 1 ≤ r) :
    ∃ res : List (List ℤ),
      getAllPredecessors (PredecessorObj.mk shape none) r xb yb =
        (Except.ok res, PredecessorObj.mk shape (some res)) ∧
      res.length = shape.d0 * shape.d1 * shape.d2 * shape.d3 ∧
      (∀ li v lat lon : ℕ, li < shape.d0 → v < shape.d1 → lat < shape.d2 →
        lon < shape.d3 →
        res[((li * shape.d1 + v) * shape.d3 + lon) * shape.d2 + lat]? =
          some (flatIndices
            (predecessorPositions shape (Pt.mk (li : ℤ) (v : ℤ) (lat : ℤ) (lon : ℤ)) r xb yb)
            shape)) ∧
      (∀ (r2 : ℤ) (xb2 yb2 : Bool),
        getAllPredecessors (PredecessorObj.mk shape (some res)) r2 xb2 yb2 =
          (Except.ok res, PredecessorObj.mk shape (some res))) := by
  have hcomp : computeAllPredecessors shape r xb yb =
      Except.ok ((allPoints shape).map fun p =>
        flatIndices (predecessorPositions shape p r xb yb) shape) := by
    unfold computeAllPredecessors
    exact mapM_eq_map _ _ _ (fun p hp =>
      getPointPredecessors_ok_of_valid shape p r xb yb hr (allPoints_valid shape p hp))
  refine ⟨(allPoints shape).map fun p =>
      flatIndices (predecessorPositions shape p r xb yb) shape, ?_, ?_, ?_, ?_⟩
  · simp [getAllPredecessors, hcomp]
  · rw [List.length_map, length_allPoints]
  · intro li v lat lon h0 h1 h2 h3
    rw [List.getElem?_map, allPoints_getElem shape li v lat lon h0 h1 h2 h3]
    rfl
  · intro r2 xb2 yb2
    rfl

/-- C4 (witness): the theorem applied to shape `(1,1,1,2)` with radius 1. -/
theorem C4_all_predecessors_witness :
    (1 : ℤ) ≤ 1 ∧
    ∃ res : List (List ℤ),
      getAllPredecessors (PredecessorObj.mk (Sh.mk 1 1 1 2) none) 1 true true =
        (Except.ok res, PredecessorObj.mk (Sh.mk 1 1 1 2) (some res)) ∧
      res.length = 1 * 1 * 1 * 2 ∧
      (∀ li v lat lon : ℕ, li < 1 → v < 1 → lat < 1 → lon < 2 →
        res[((li * 1 + v) * 2 + lon) * 1 + lat]? =
          some (flatIndices
            (predecessorPositions (Sh.mk 1 1 1 2)
              (Pt.mk (li : ℤ) (v : ℤ) (lat : ℤ) (lon : ℤ)) 1 true true)
            (Sh.mk 1 1 1 2))) ∧
      (∀ (r2 : ℤ) (xb2 yb2 : Bool),
        getAllPredecessors (PredecessorObj.mk (Sh.mk 1 1 1 2) (some res)) r2 xb2 yb2 =
          (Except.ok res, PredecessorObj.mk (Sh.mk 1 1 1 2) (some res))) :=
  ⟨le_refl 1, C4_all_predecessors (Sh.mk 1 1 1 2) 1 true true (le_refl 1)⟩

/-! Estimator claims: refinement between the two entry points (C2), the
no-predecessor branch (C3), and the structure of `T` (C7). -/

/-- C2 (counterexample): the claim asserts
`precision_matrix(Xb, pred, n, alpha) = PrecisionMatrix(Xb, pred, n, alpha).get_matrix()`
for every valid input.  For `Xb = [[1,2],[3,4]]`, `pred = [[]]`, `n = 1`,
`alpha = 1`, the free function returns `[[4]]` while the object method
returns `[[2]]`. -/
theorem C2_counterexample :
    corePrecisionMatrix 1 [[1, 2], [3, 4]] [[]] 1 ≠
      pmGetMatrix 1 [[1, 2], [3, 4]] [[]] 1 := by
  intro h
  have h00 : corePrecisionMatrix 1 [[1, 2], [3, 4]] [[]] 1 0 0 =
      pmGetMatrix 1 [[1, 2], [3, 4]] [[]] 1 0 0 := by rw [h]
  have hc : corePrecisionMatrix 1 [[1, 2], [3, 4]] [[]] 1 0 0 = 4 := by
    norm_num [corePrecisionMatrix, coreFactors, calculatePrecisionFactors,
      perFeatureEntries, perFeatureD, cooToMatrix, diagMatrix, npVar, col, tp,
      numCols, Matrix.mul_apply, Matrix.transpose_apply, Fin.sum_univ_succ,
      List.enum, List.enumFrom, List.range_succ]
  have hp : pmGetMatrix 1 [[1, 2], [3, 4]] [[]] 1 0 0 = 2 := by
    norm_num [pmGetMatrix, pmFactors, calculatePrecisionFactors,
      perFeatureEntries, perFeatureD, cooToMatrix, diagMatrix, npVar, col,
      Matrix.mul_apply, Matrix.transpose_apply, Fin.sum_univ_succ,
      List.enum, List.enumFrom]
  rw [hc, hp] at h00
  norm_num at h00

/-- C2 (amended): the two entry points share the identical per-feature loop,
but they are not the same computation: the free function runs the loop on
`Xb.T` (so its factors equal the object's factors on the transposed input)
and combines the factors as `Tᵀ·D·T`, while the object method runs the loop
on `Xb` itself and combines them as `Tᵀ·T + D`; the returned matrices differ
in general. -/
theorem C2_amended (Xb : List (List ℚ)) (pred : List (List ℕ)) (α : ℚ) :
    coreFactors Xb pred α = pmFactors (tp Xb) pred α ∧
    (∀ n : ℕ, corePrecisionMatrix n Xb pred α =
        Matrix.transpose (cooToMatrix n (coreFactors Xb pred α).1) *
          diagMatrix n (coreFactors Xb pred α).2 *
          cooToMatrix n (coreFactors Xb pred α).1 ∧
      pmGetMatrix n Xb pred α =
        Matrix.transpose (cooToMatrix n (pmFactors Xb pred α).1) *
          cooToMatrix n (pmFactors Xb pred α).1 +
          diagMatrix n (pmFactors Xb pred α).2) :=
  ⟨rfl, fun _ => ⟨rfl, rfl⟩⟩

/-- The dot product with an empty coefficient vector is zero, so the ridge
prediction with an empty design matrix is the zero vector. -/
theorem ridgePredict_nil_cols (Xb_ : List (List ℚ)) (c : List ℚ) :
    ridgePredict (cols Xb_ []) c = Xb_.map fun _ => 0 := by
  unfold ridgePredict cols
  rw [List.map_map]
  refine List.map_congr_left fun row _ => ?_
  simp [dot]

/-- With an empty predecessor list the per-feature regression has an empty
design matrix: the prediction is zero and the residual vector is the raw
column itself. -/
theorem residualsOf_nil (Xb_ : List (List ℚ)) (i : ℕ) (α : ℚ) :
    residualsOf Xb_ [] i α = col Xb_ i := by
  show ((col Xb_ i).zip (ridgePredict (cols Xb_ [])
      (ridgeCoef (cols Xb_ []) (col Xb_ i) α))).map (fun ab => ab.1 - ab.2) =
    col Xb_ i
  rw [ridgePredict_nil_cols]
  unfold col
  rw [List.zip_map', List.map_map]
  simp

/-- C3 (counterexample): the claim asserts that a feature with a non-empty
predecessor list gets a regression with `D` from the residual variance; the
code branches on `i == 0` instead.  For `Xb_ = [[0,0],[1,2],[2,4]]`,
`pred = [[1],[0]]`, `alpha = 1`, feature 0 has the non-empty predecessor
list `[1]`, yet `D[0] = 3/2 = 1/var(raw column 0)`, not the residual-based
value `1323/2` the claim requires. -/
theorem C3_counterexample :
    ([1] : List ℕ) ≠ [] ∧
    (pmFactors [[0, 0], [1, 2], [2, 4]] [[1], [0]] 1).2.getD 0 0 =
      1 / npVar (col [[0, 0], [1, 2], [2, 4]] 0) ∧
    1 / npVar (col [[0, 0], [1, 2], [2, 4]] 0) = 3 / 2 ∧
    1 / npVar (residualsOf [[0, 0], [1, 2], [2, 4]] [1] 0 1) = 1323 / 2 ∧
    (pmFactors [[0, 0], [1, 2], [2, 4]] [[1], [0]] 1).2.getD 0 0 ≠
      1 / npVar (residualsOf [[0, 0], [1, 2], [2, 4]] [1] 0 1) := by
  have h1 : (pmFactors [[0, 0], [1, 2], [2, 4]] [[1], [0]] 1).2.getD 0 0 = 3 / 2 := by
    norm_num [pmFactors, calculatePrecisionFactors, perFeatureD, npVar, col,
      List.enum, List.enumFrom]
  have h2 : 1 / npVar (col [[0, 0], [1, 2], [2, 4]] 0) = 3 / 2 := by
    norm_num [npVar, col]
  have h3 : 1 / npVar (residualsOf [[0, 0], [1, 2], [2, 4]] [1] 0 1) = 1323 / 2 := by
    norm_num [residualsOf, ridgeCoef, ridgePredict, cramerSolve, addDiag, matMul,
      matVec, tp, numCols, cols, col, dot, listDet, detAux, replaceCol, npVar,
      List.enum, List.enumFrom, List.range_succ]
  refine ⟨by simp, by rw [h1, h2], h2, h3, by rw [h1, h3]; norm_num⟩

/-- C3 (amended): the estimator branches on the feature index, not on
emptiness of the predecessor list.  For every feature `i` whose predecessor
list is empty the produced `D[i]` does equal `1/var` of the raw column
(for `i = 0` directly, for `i ≥ 1` because the empty regression has zero
prediction), and such a feature contributes only its diagonal `T` entry; but
feature 0 is always treated this way even when its predecessor list is
non-empty (see the counterexample). -/
theorem C3_amended (Xb_ : List (List ℚ)) (pred : List (List ℕ)) (α : ℚ)
    (i : ℕ) (hi : i < pred.length) (he : pred.getD i [] = []) :
    (calculatePrecisionFactors Xb_ pred α).2.getD i 0 = 1 / npVar (col Xb_ i) ∧
    perFeatureEntries Xb_ α i (pred.getD i []) = [(i, i, 1)] := by
  constructor
  · have hD : (calculatePrecisionFactors Xb_ pred α).2.getD i 0 =
        perFeatureD Xb_ α i (pred.getD i []) := by
      unfold calculatePrecisionFactors
      have hlen : i < ((pred.enum.map fun ip => perFeatureD Xb_ α ip.1 ip.2)).length := by
        simpa using hi
      rw [List.getD_eq_getElem _ 0 hlen, List.getElem_map, List.getElem_enum,
        List.getD_eq_getElem pred [] hi]
    rw [hD, he]
    unfold perFeatureD
    split
    · rename_i h0
      rw [h0]
    · rw [residualsOf_nil]
  · rw [he]
    unfold perFeatureEntries
    split
    · rfl
    · simp

/-- C3 (witness): the amended theorem applied to `Xb_ = [[1],[2]]`,
`pred = [[],[]]`, `alpha = 1`, feature `i = 1` (empty list, regression
branch). -/
theorem C3_amended_witness :
    1 < ([[], []] : List (List ℕ)).length ∧
    ([[], []] : List (List ℕ)).getD 1 [] = [] ∧
    ((calculatePrecisionFactors [[1], [2]] [[], []] 1).2.getD 1 0 =
      1 / npVar (col [[1], [2]] 1) ∧
     perFeatureEntries [[1], [2]] 1 1 (([[], []] : List (List ℕ)).getD 1 []) =
      [(1, 1, 1)]) :=
  ⟨by norm_num, by rfl, C3_amended [[1], [2]] [[], []] 1 1 (by norm_num) (by rfl)⟩

/-! Machinery for the structure of the coefficient matrix `T` (claim C7). -/

theorem sum_filterMap_flatten (p : ℕ × ℕ × ℚ → Bool) :
    ∀ Ls : List (List (ℕ × ℕ × ℚ)),
      ((Ls.flatten.filter p).map fun e => e.2.2).sum =
        (Ls.map fun L2 => ((L2.filter p).map fun e => e.2.2).sum).sum := by
  intro Ls
  induction Ls with
  | nil => simp
  | cons l ls ih =>
    simp only [List.flatten_cons, List.filter_append, List.map_append,
      List.sum_append, List.map_cons, List.sum_cons, ih]

theorem sum_enumFrom_zero {α : Type} (F : ℕ → α → ℚ) (a : ℕ)
    (hz : ∀ i x, i ≠ a → F i x = 0) :
    ∀ (l : List α) (s : ℕ), a < s →
      ((l.enumFrom s).map fun ip => F ip.1 ip.2).sum = 0 := by
  intro l
  induction l with
  | nil => intro s _; simp
  | cons x xs ih =>
    intro s hs
    simp only [List.enumFrom_cons, List.map_cons, List.sum_cons]
    rw [hz s x (by omega), ih (s + 1) (by omega), add_zero]

theorem sum_enumFrom_single {α : Type} (F : ℕ → α → ℚ) (a : ℕ) (d : α)
    (hz : ∀ i x, i ≠ a → F i x = 0) :
    ∀ (l : List α) (s : ℕ), s ≤ a → a < s + l.length →
      ((l.enumFrom s).map fun ip => F ip.1 ip.2).sum = F a (l.getD (a - s) d) := by
  intro l
  induction l with
  | nil => intro s h1 h2; simp at h2; omega
  | cons x xs ih =>
    intro s h1 h2
    simp only [List.enumFrom_cons, List.map_cons, List.sum_cons]
    by_cases hsa : s = a
    · subst hsa
      rw [sum_enumFrom_zero F s hz xs (s + 1) (by omega), add_zero,
        Nat.sub_self, List.getD_cons_zero]
    · rw [hz s x (by omega), zero_add]
      have hk : a - s = (a - (s + 1)) + 1 := by omega
      rw [hk, List.getD_cons_succ]
      exact ih (s + 1) (by omega) (by simp at h2 ⊢; omega)

theorem perFeatureEntries_row (Xb_ : List (List ℚ)) (α : ℚ) (i : ℕ)
    (p : List ℕ) : ∀ e ∈ perFeatureEntries Xb_ α i p, e.1 = i := by
  intro e he
  unfold perFeatureEntries at he
  split at he
  · rw [List.mem_singleton] at he
    rw [he]
  · rcases List.mem_cons.mp he with rfl | hm
    · rfl
    · obtain ⟨jc, _, rfl⟩ := List.mem_map.mp hm
      rfl

/-- Row/column extraction of the assembled COO matrix: only feature `a`'s
entry block can contribute to row `a`. -/
theorem cooT_entry (Xb_ : List (List ℚ)) (pred : List (List ℕ)) (α : ℚ)
    (n : ℕ) (hlen : pred.length = n) (a b : Fin n) :
    cooToMatrix n (calculatePrecisionFactors Xb_ pred α).1 a b =
      (((perFeatureEntries Xb_ α (a : ℕ) (pred.getD (a : ℕ) [])).filter
          fun e => decide (e.1 = (a : ℕ) ∧ e.2.1 = (b : ℕ))).map
        fun e => e.2.2).sum := by
  show ((((pred.enum.map fun ip => perFeatureEntries Xb_ α ip.1 ip.2).flatten.filter
      fun e => decide (e.1 = (a : ℕ) ∧ e.2.1 = (b : ℕ))).map fun e => e.2.2).sum) = _
  rw [sum_filterMap_flatten, List.map_map]
  have hz : ∀ (i : ℕ) (x : List ℕ), i ≠ (a : ℕ) →
      (((perFeatureEntries Xb_ α i x).filter
        fun e => decide (e.1 = (a : ℕ) ∧ e.2.1 = (b : ℕ))).map fun e => e.2.2).sum = 0 := by
    intro i x hne
    rw [List.filter_eq_nil_iff.mpr fun e he => by
      have hr := perFeatureEntries_row Xb_ α i x e he
      simp [hr, hne]]
    rfl
  have key := sum_enumFrom_single
    (fun i x => (((perFeatureEntries Xb_ α i x).filter
      fun e => decide (e.1 = (a : ℕ) ∧ e.2.1 = (b : ℕ))).map fun e => e.2.2).sum)
    (a : ℕ) [] hz pred 0 (Nat.zero_le _) (by omega)
  rw [Nat.sub_zero] at key
  exact key

/-- Off-diagonal entries produced by the zip survive the column filter only
when the column value is in the predecessor list. -/
theorem offs_filter_nil_of_not_mem (p : List ℕ) (cs : List ℚ) (a b : ℕ)
    (hb : b ∉ p) :
    ((p.zip cs).map fun jc => (a, jc.1, -jc.2)).filter
      (fun e => decide (e.1 = a ∧ e.2.1 = b)) = [] := by
  refine List.filter_eq_nil_iff.mpr fun e he => ?_
  obtain ⟨jc, hjc, rfl⟩ := List.mem_map.mp he
  obtain ⟨j, c⟩ := jc
  have hj : j ∈ p := (List.of_mem_zip hjc).1
  simp only [decide_eq_true_eq, not_and]
  intro _
  exact fun hbe => hb (hbe ▸ hj)

/-- With a duplicate-free predecessor list `p` of the same length as the
coefficient vector, exactly one zip entry survives the filter at column
`p.getD t 0`. -/
theorem zip_filter_single (a : ℕ) :
    ∀ (p : List ℕ) (cs : List ℚ) (t : ℕ), p.Nodup → t < p.length →
      p.length = cs.length →
      ((p.zip cs).map fun jc => (a, jc.1, -jc.2)).filter
          (fun e => decide (e.1 = a ∧ e.2.1 = p.getD t 0)) =
        [(a, p.getD t 0, -(cs.getD t 0))] := by
  intro p
  induction p with
  | nil => intro cs t _ ht _; simp at ht
  | cons j pr ih =>
    intro cs t hnd ht hlen
    cases cs with
    | nil => simp at hlen
    | cons c cr =>
      have hjnotin : j ∉ pr := (List.nodup_cons.mp hnd).1
      cases t with
      | zero =>
        simp only [List.zip_cons_cons, List.map_cons, List.filter_cons,
          List.getD_cons_zero]
        rw [if_pos (by simp)]
        rw [offs_filter_nil_of_not_mem pr cr a j hjnotin]
      | succ t =>
        have hbmem : pr.getD t 0 ∈ pr := by
          rw [List.getD_eq_getElem pr 0 (by simpa using ht)]
          exact List.getElem_mem _
        simp only [List.zip_cons_cons, List.map_cons, List.filter_cons,
          List.getD_cons_succ]
        rw [if_neg (by
          simp only [decide_eq_true_eq, not_and]
          intro _
          exact fun hj => hjnotin (hj ▸ hbmem))]
        exact ih cr t (List.nodup_cons.mp hnd).2 (by simpa using ht) (by simpa using hlen)

theorem ridgeCoef_length (X : List (List ℚ)) (y : List ℚ) (α : ℚ) :
    (ridgeCoef X y α).length = numCols X := by
  unfold ridgeCoef cramerSolve addDiag matMul tp
  simp

theorem numCols_cols (Xb_ : List (List ℚ)) (p : List ℕ) (h : Xb_ ≠ []) :
    numCols (cols Xb_ p) = p.length := by
  cases Xb_ with
  | nil => exact absurd rfl h
  | cons r rest => simp [numCols, cols]

/-- C7 (counterexample): the claim asserts that at every position `(i, j)`
with `j` in feature `i`'s predecessor list the entry of `T` is the negated
fitted ridge coefficient.  For `Xb_ = [[0,0],[1,2],[2,4]]`,
`pred = [[1],[0]]`, `alpha = 1`, feature 0 declares predecessor 1, the
fitted coefficient is `10/21`, but `T[0,1] = 0` (the loop never assembles
off-diagonal entries for `i = 0`). -/
theorem C7_counterexample :
    (1 : ℕ) ∈ ([1] : List ℕ) ∧
    cooToMatrix 2 (pmFactors [[0, 0], [1, 2], [2, 4]] [[1], [0]] 1).1 0 1 = 0 ∧
    -((ridgeCoef (cols [[0, 0], [1, 2], [2, 4]] [1])
        (col [[0, 0], [1, 2], [2, 4]] 0) 1).getD 0 0) = -(10 / 21) ∧
    (0 : ℚ) ≠ -(10 / 21) := by
  refine ⟨by simp, ?_, ?_, by norm_num⟩
  · norm_num [pmFactors, calculatePrecisionFactors, perFeatureEntries,
      perFeatureD, cooToMatrix, ridgeCoef, cramerSolve, addDiag, matMul,
      matVec, tp, numCols, cols, col, dot, listDet, detAux, replaceCol,
      List.enum, List.enumFrom, List.range_succ, List.filter]
  · norm_num [ridgeCoef, cramerSolve, addDiag, matMul, matVec, tp, numCols,
      cols, col, dot, listDet, detAux, replaceCol,
      List.enum, List.enumFrom, List.range_succ]

/-- C7 (amended): under the claim's validity assumptions (no self-index, no
duplicates), the assembled `T` has unit diagonal and is zero outside
declared predecessor positions; at a declared position `(i, j)` the entry is
the negated fitted ridge coefficient for every `i ≥ 1`, while row 0 has no
off-diagonal entries at all — even at declared predecessor positions —
because the loop branches on `i == 0`. -/
theorem C7_amended (Xb_ : List (List ℚ)) (pred : List (List ℕ)) (α : ℚ)
    (n : ℕ) (hlen : pred.length = n) (hXb : Xb_ ≠ [])
    (hvalid : ∀ i : ℕ, i < n → (pred.getD i []).Nodup ∧ i ∉ pred.getD i []) :
    (∀ a : Fin n, cooToMatrix n (calculatePrecisionFactors Xb_ pred α).1 a a = 1) ∧
    (∀ a b : Fin n, a ≠ b → (b : ℕ) ∉ pred.getD (a : ℕ) [] →
      cooToMatrix n (calculatePrecisionFactors Xb_ pred α).1 a b = 0) ∧
    (∀ a b : Fin n, (a : ℕ) = 0 → a ≠ b →
      cooToMatrix n (calculatePrecisionFactors Xb_ pred α).1 a b = 0) ∧
    (∀ a b : Fin n, 1 ≤ (a : ℕ) → ∀ t : ℕ, t < (pred.getD (a : ℕ) []).length →
      (b : ℕ) = (pred.getD (a : ℕ) []).getD t 0 →
      cooToMatrix n (calculatePrecisionFactors Xb_ pred α).1 a b =
        -((ridgeCoef (cols Xb_ (pred.getD (a : ℕ) []))
            (col Xb_ (a : ℕ)) α).getD t 0)) := by
  have hcs : ∀ i : ℕ, (ridgeCoef (cols Xb_ (pred.getD i []))
      (col Xb_ i) α).length = (pred.getD i []).length := by
    intro i
    rw [ridgeCoef_length, numCols_cols Xb_ _ hXb]
  refine ⟨?_, ?_, ?_, ?_⟩
  · -- unit diagonal
    intro a
    rw [cooT_entry Xb_ pred α n hlen a a]
    have hself := (hvalid (a : ℕ) (by omega)).2
    unfold perFeatureEntries
    split
    · simp
    · rw [List.filter_cons, if_pos (by simp),
        offs_filter_nil_of_not_mem _ _ _ _ hself]
      simp
  · -- zero outside declared positions
    intro a b hab hbp
    rw [cooT_entry Xb_ pred α n hlen a b]
    have hvne : (a : ℕ) ≠ (b : ℕ) := fun h => hab (Fin.val_injective h)
    unfold perFeatureEntries
    split
    · simp [List.filter_singleton, hvne]
    · rw [List.filter_cons, if_neg (by simp [hvne]),
        offs_filter_nil_of_not_mem _ _ _ _ hbp]
      rfl
  · -- row 0 has no off-diagonal entries
    intro a b ha hab
    rw [cooT_entry Xb_ pred α n hlen a b]
    have hvne : (a : ℕ) ≠ (b : ℕ) := fun h => hab (Fin.val_injective h)
    unfold perFeatureEntries
    split
    · simp [List.filter_singleton, hvne]
    · rename_i hne
      exact absurd ha hne
  · -- declared positions of rows i >= 1 carry the negated coefficient
    intro a b ha t ht hb
    rw [cooT_entry Xb_ pred α n hlen a b]
    obtain ⟨hnd, hself⟩ := hvalid (a : ℕ) (by omega)
    have hbmem : (b : ℕ) ∈ pred.getD (a : ℕ) [] := by
      rw [hb, List.getD_eq_getElem _ 0 ht]
      exact List.getElem_mem _
    have hvne : (a : ℕ) ≠ (b : ℕ) := fun h => hself (h ▸ hbmem)
    unfold perFeatureEntries
    split
    · rename_i h0
      omega
    · rw [List.filter_cons, if_neg (by simp [hvne]), hb,
        zip_filter_single (a : ℕ) (pred.getD (a : ℕ) []) _ t hnd ht (hcs _).symm]
      simp

/-- C7 (witness): the amended theorem applied to `Xb_ = [[1,2],[3,5]]`,
`pred = [[],[0]]`, `n = 2`, `alpha = 1`. -/
theorem C7_amended_witness :
    ([[], [0]] : List (List ℕ)).length = 2 ∧ ([[1, 2], [3, 5]] : List (List ℚ)) ≠ [] ∧
    (∀ i : ℕ, i < 2 → (([[], [0]] : List (List ℕ)).getD i []).Nodup ∧
      i ∉ ([[], [0]] : List (List ℕ)).getD i []) ∧
    ((∀ a : Fin 2,
        cooToMatrix 2 (calculatePrecisionFactors [[1, 2], [3, 5]] [[], [0]] 1).1 a a = 1) ∧
     (∀ a b : Fin 2, a ≠ b → (b : ℕ) ∉ ([[], [0]] : List (List ℕ)).getD (a : ℕ) [] →
        cooToMatrix 2 (calculatePrecisionFactors [[1, 2], [3, 5]] [[], [0]] 1).1 a b = 0) ∧
     (∀ a b : Fin 2, (a : ℕ) = 0 → a ≠ b →
        cooToMatrix 2 (calculatePrecisionFactors [[1, 2], [3, 5]] [[], [0]] 1).1 a b = 0) ∧
     (∀ a b : Fin 2, 1 ≤ (a : ℕ) →
        ∀ t : ℕ, t < (([[], [0]] : List (List ℕ)).getD (a : ℕ) []).length →
        (b : ℕ) = (([[], [0]] : List (List ℕ)).getD (a : ℕ) []).getD t 0 →
        cooToMatrix 2 (calculatePrecisionFactors [[1, 2], [3, 5]] [[], [0]] 1).1 a b =
          -((ridgeCoef (cols [[1, 2], [3, 5]] (([[], [0]] : List (List ℕ)).getD (a : ℕ) []))
              (col [[1, 2], [3, 5]] (a : ℕ)) 1).getD t 0))) :=
  ⟨by rfl, by simp, by decide,
   C7_amended [[1, 2], [3, 5]] [[], [0]] 1 2 (by rfl) (by simp) (by decide)⟩

end AmlPredAssim
